import Mathlib

/-!
Verification development for the OpenSea harvest / metadata-normalization
CLI (src/cli/commands/opensea.ts, src/cli/commands/metadataPrepare.ts and
the newer prepareMetadata variant in src/unnamed/part_002).

The TypeScript sources are shallowly embedded: asynchronous code becomes
explicit state passing or trace-producing functions, JavaScript exceptions
become Except, and JavaScript strings become Lean String (or List Char
where character-level reasoning is needed).  Dates are kept as their ISO
source strings; JavaScript compares them with lexicographic string
comparison, which Lean's String order models exactly for ASCII data.
-/

namespace Oss

/-- Attribute entry of a metadata record ({trait_type, value}), as used by
the prepareMetadata passes (IMetadataAttribute). -/
structure IMetadataAttribute where
  trait_type : String
  value : String
deriving DecidableEq, Repr

/-- Ownership record as consumed by the normalization passes: only
created_date is read by the code under verification. -/
structure Owner where
  created_date : String
deriving DecidableEq, Repr

/-- Provenance event as consumed by the normalization passes: only
created_date is read by the code under verification. -/
structure AssetEvent where
  created_date : String
deriving DecidableEq, Repr

/-- A harvested metadata record (IOpenSeaMetadata) as the normalization
passes see it after JSON.parse.  Fields accessed through JavaScript
optional chaining, or possibly absent in the parsed JSON, are Options. -/
structure OSMetadata where
  name : String
  description : String
  image : String
  attributes : Option (List IMetadataAttribute)
  owners : Option (List Owner)
  events : Option (List AssetEvent)
  id : Option String
  original_creation_date : Option String
deriving DecidableEq, Repr

/-- JavaScript Array.prototype.reduce with NO initial value: the first
element seeds the accumulator and an empty array throws a TypeError. -/
def jsReduceNoInit (f : α → α → α) : List α → Except String α
  | [] => .error "TypeError: Reduce of empty array with no initial value"
  | x :: xs => .ok (xs.foldl f x)

/-- JavaScript push through optional chaining (xs?.push(a)): appends when
the array is present, does nothing when it is null/undefined. -/
def jsPushOpt (xs : Option (List α)) (a : α) : Option (List α) :=
  xs.map (fun l => l ++ [a])

/-- Substring test on character lists (pattern, haystack): does the
haystack start with the pattern. -/
def startsWithL : List Char → List Char → Bool
  | [], _ => true
  | _ :: _, [] => false
  | p :: ps, c :: cs => p = c && startsWithL ps cs

/-- Substring test on character lists (pattern, haystack): does the
pattern occur contiguously anywhere in the haystack. -/
def isSubstrL (pat : List Char) : List Char → Bool
  | [] => startsWithL pat []
  | c :: cs => startsWithL pat (c :: cs) || isSubstrL pat cs

/-- JavaScript String.prototype.includes, on the character lists of the
two strings. -/
def jsIncludes (s pat : String) : Bool :=
  isSubstrL pat.data s.data

/-- Lexicographic strict comparison of character lists, as JavaScript's
relational operators compare strings code unit by code unit (a strict
prefix is smaller). -/
def charListLt : List Char → List Char → Bool
  | [], [] => false
  | [], _ :: _ => true
  | _ :: _, [] => false
  | a :: as, b :: bs => a < b || (a = b && charListLt as bs)

/-- JavaScript string comparison s1 < s2 (lexicographic by code unit; the
harvested ISO date strings are ASCII, where this coincides with the
source's behaviour exactly). -/
def jsStrLt (a b : String) : Bool :=
  charListLt a.data b.data

/-- English month name, as produced by toLocaleDateString("en-US",
{month: "long"}). -/
def monthName : Nat → String
  | 1 => "January"
  | 2 => "February"
  | 3 => "March"
  | 4 => "April"
  | 5 => "May"
  | 6 => "June"
  | 7 => "July"
  | 8 => "August"
  | 9 => "September"
  | 10 => "October"
  | 11 => "November"
  | 12 => "December"
  | _ => "Invalid Date"

/-- Model of new Date(iso).toLocaleDateString("en-US", {year: "numeric",
month: "long", day: "numeric"}): reads the leading YYYY-MM-DD of the ISO
string and renders it as, for example, "January 5, 2022".  Time zone
adjustment is not modelled. -/
def localeDateString (iso : String) : String :=
  match (iso.take 10).splitOn "-" with
  | [y, m, d] =>
    match m.toNat?, d.toNat? with
    | some mn, some dn => monthName mn ++ " " ++ toString dn ++ ", " ++ y
    | _, _ => "Invalid Date"
  | _ => "Invalid Date"

namespace Part002

/-- The oldestOwnerReducer of src/unnamed/part_002: keeps whichever of the
two events has the lexicographically smaller created_date.  (The
prev-undefined branch of the source is unreachable because reduce is
called without an initial value.) -/
def oldestOwnerReducer (prev current : AssetEvent) : AssetEvent :=
  if jsStrLt prev.created_date current.created_date then prev else current

/-- The oldest-event computation of part_002:
metadata.events?.reduce(oldestOwnerReducer).  Optional chaining makes an
absent events field yield undefined, but an empty events array reaches
Array.reduce with no initial value, which throws. -/
def oldestEventOf (events : Option (List AssetEvent)) :
    Except String (Option AssetEvent) :=
  match events with
  | none => .ok none
  | some l => (jsReduceNoInit oldestOwnerReducer l).map some

/-- Options of part_002's prepareMetadata that drive the final custom
metadata section (hunnys selects the Type classification, mintAttribute
the Original Mint Date injection). -/
structure PrepOpts where
  hunnys : Bool
  mintAttribute : Bool
deriving DecidableEq, Repr

/-- The Type attribute pushed by part_002's hunnys branch: Classic when
the name includes "Hunny #", otherwise Named. -/
def typeAttributeFor (name : String) : IMetadataAttribute :=
  if jsIncludes name "Hunny #" then ⟨"Type", "Classic"⟩ else ⟨"Type", "Named"⟩

/-- The fixed provenance sentence appended to the description by
part_002 (the template literal contains a blank line). -/
def provenanceSentence (locale : String) : String :=
  "\n\nThis NFT was originally created on the OpenSea Storefront on " ++
    locale ++ "."

/-- The final custom-metadata section of part_002's prepareMetadata loop
(creation date string, Type attribute, Original Mint Date attribute, id,
original_creation_date, description rewrite), given the already computed
oldest event and the 1-based token id.  toISOString is modelled as the
original ISO string. -/
def finalizeRecord (opts : PrepOpts) (oldest : Option AssetEvent)
    (tokenId : Nat) (m : OSMetadata) : OSMetadata :=
  let creationDate := oldest.map (fun e => e.created_date)
  let localeCreationDate := creationDate.map localeDateString
  let m1 :=
    if opts.hunnys then
      { m with attributes := jsPushOpt m.attributes (typeAttributeFor m.name) }
    else m
  let m2 :=
    match opts.mintAttribute, localeCreationDate with
    | true, some d =>
      { m1 with attributes := jsPushOpt m1.attributes ⟨"Original Mint Date", d⟩ }
    | _, _ => m1
  { m2 with
    id := some (toString tokenId)
    original_creation_date := creationDate
    description :=
      match localeCreationDate with
      | some d => m2.description ++ provenanceSentence d
      | none => m2.description }

/-- The metadata-rewriting part of one part_002 loop iteration: compute
the oldest event (which can throw on an empty events array) and then run
the final custom-metadata section. -/
def metadataPhase (opts : PrepOpts) (tokenId : Nat) (m : OSMetadata) :
    Except String OSMetadata := do
  let oldest ← oldestEventOf m.events
  pure (finalizeRecord opts oldest tokenId m)

end Part002

/-- State threaded through a media-substitution run: the set of file
paths that exist on disk, the remaining filtered gif-URL stream produced
by the randomGif generator, and how many gif downloads the run performed. -/
structure MediaState where
  fs : List String
  stream : List String
  downloads : Nat
deriving DecidableEq, Repr

namespace Part002

/-- The gif branch of one part_002 loop iteration (gifIterator present):
stat-check outDir/(i+1).gif; when the file is absent, draw the next gif
URL (throwing "Ran out of GIFs" on exhaustion), download it, write the
bytes to outDir/assets/(i+1).gif and set metadata.image; when the
stat-check finds the file, skip the entire block, including the
metadata.image assignment. -/
def mediaStep (outDir : String) (i : Nat) (m : OSMetadata) (st : MediaState) :
    Except String (OSMetadata × MediaState) :=
  let gifImageName := toString (i + 1) ++ ".gif"
  if (outDir ++ "/" ++ gifImageName) ∈ st.fs then
    .ok (m, st)
  else
    match st.stream with
    | [] => .error "Ran out of GIFs"
    | _url :: rest =>
      .ok ({ m with image := gifImageName },
        { fs := st.fs ++ [outDir ++ "/assets/" ++ gifImageName]
          stream := rest
          downloads := st.downloads + 1 })

/-- The media-substitution phase of a whole part_002 prepareMetadata run
(gifIterator present): the gif branch applied to each record in order,
i running from 0. -/
def mediaRun (outDir : String) :
    Nat → List OSMetadata → MediaState →
      Except String (List OSMetadata × MediaState)
  | _, [], st => .ok ([], st)
  | i, m :: ms, st => do
    let (m1, st1) ← mediaStep outDir i m st
    let (rest, st2) ← mediaRun outDir (i + 1) ms st1
    pure (m1 :: rest, st2)

end Part002

namespace MetadataPrepare

/-- The gif branch of one metadataPrepare.ts loop iteration: stat-check
outDir/(i+1).gif; when the file is absent, draw the next gif URL
(throwing "Ran out of GIFs" on exhaustion), download it and write the
bytes to outDir/(i+1).gif; metadata.image is assigned after the guard,
on every iteration. -/
def mediaStep (outDir : String) (i : Nat) (m : OSMetadata) (st : MediaState) :
    Except String (OSMetadata × MediaState) :=
  let gifImageName := toString (i + 1) ++ ".gif"
  let path := outDir ++ "/" ++ gifImageName
  if path ∈ st.fs then
    .ok ({ m with image := gifImageName }, st)
  else
    match st.stream with
    | [] => .error "Ran out of GIFs"
    | _url :: rest =>
      .ok ({ m with image := gifImageName },
        { fs := st.fs ++ [path]
          stream := rest
          downloads := st.downloads + 1 })

/-- The media-substitution phase of a whole metadataPrepare.ts
prepareMetadata run (gifIterator present). -/
def mediaRun (outDir : String) :
    Nat → List OSMetadata → MediaState →
      Except String (List OSMetadata × MediaState)
  | _, [], st => .ok ([], st)
  | i, m :: ms, st => do
    let (m1, st1) ← mediaStep outDir i m st
    let (rest, st2) ← mediaRun outDir (i + 1) ms st1
    pure (m1 :: rest, st2)

end MetadataPrepare

/-! Model of JavaScript Array.prototype.sort with a user comparator.
For a consistent comparator the ECMAScript specification pins the result
to the unique stable sorted permutation, which any stable insertion sort
realizes: an element is inserted before the first element b of the
already-sorted suffix with cmp(a, b) <= 0. -/

/-- Insert a into a list, placing it before the first element b with
cmp a b <= 0. -/
def jsOrderedInsert (cmp : α → α → Int) (a : α) : List α → List α
  | [] => [a]
  | b :: l => if cmp a b ≤ 0 then a :: b :: l else b :: jsOrderedInsert cmp a l

/-- Stable insertion sort driven by a JavaScript-style comparator. -/
def jsSort (cmp : α → α → Int) : List α → List α
  | [] => []
  | a :: l => jsOrderedInsert cmp a (jsSort cmp l)

theorem mem_jsOrderedInsert (cmp : α → α → Int) (a x : α) (l : List α) :
    x ∈ jsOrderedInsert cmp a l ↔ x = a ∨ x ∈ l := by
  induction l with
  | nil => simp [jsOrderedInsert]
  | cons b l ih =>
    by_cases h : cmp a b ≤ 0
    · simp [jsOrderedInsert, h]
    · simp [jsOrderedInsert, h, ih]
      tauto

theorem jsOrderedInsert_perm (cmp : α → α → Int) (a : α) (l : List α) :
    List.Perm (jsOrderedInsert cmp a l) (a :: l) := by
  induction l with
  | nil => simp [jsOrderedInsert]
  | cons b l ih =>
    by_cases h : cmp a b ≤ 0
    · simp [jsOrderedInsert, h]
    · simp only [jsOrderedInsert, h, if_false]
      exact (ih.cons b).trans (List.Perm.swap a b l)

theorem jsSort_perm (cmp : α → α → Int) (l : List α) : List.Perm (jsSort cmp l) l := by
  induction l with
  | nil => simp [jsSort]
  | cons a l ih =>
    exact (jsOrderedInsert_perm cmp a (jsSort cmp l)).trans (ih.cons a)

/-- Inserting an element that is strictly comparable to every element of
a strictly sorted list keeps the list strictly sorted, provided the
comparator answers nonpositive exactly on the strictly smaller side of
every comparable pair. -/
theorem jsOrderedInsert_pairwise (lt : α → α → Bool) (cmp : α → α → Int)
    (htrans : ∀ a b c, lt a b = true → lt b c = true → lt a c = true)
    (hcmp : ∀ a b, (lt a b = true ∨ lt b a = true) →
      (cmp a b ≤ 0 ↔ lt a b = true))
    (a : α) (l : List α)
    (hl : l.Pairwise (fun x y => lt x y = true))
    (ha : ∀ b ∈ l, lt a b = true ∨ lt b a = true) :
    (jsOrderedInsert cmp a l).Pairwise (fun x y => lt x y = true) := by
  induction l with
  | nil => simp [jsOrderedInsert]
  | cons b l ih =>
    have hab : lt a b = true ∨ lt b a = true := ha b (List.mem_cons_self b l)
    by_cases h : cmp a b ≤ 0
    · have hlt : lt a b = true := (hcmp a b hab).mp h
      simp only [jsOrderedInsert, h, if_true]
      refine List.Pairwise.cons ?_ hl
      intro y hy
      rcases List.mem_cons.mp hy with rfl | hy
      · exact hlt
      · exact htrans a b y hlt (List.rel_of_pairwise_cons hl hy)
    · have hgt : lt b a = true := by
        rcases hab with hlt | hgt
        · exact absurd ((hcmp a b (Or.inl hlt)).mpr hlt) h
        · exact hgt
      simp only [jsOrderedInsert, h, if_false]
      refine List.Pairwise.cons ?_ ?_
      · intro y hy
        rcases (mem_jsOrderedInsert cmp a y l).mp hy with rfl | hy
        · exact hgt
        · exact List.rel_of_pairwise_cons hl hy
      · exact ih (List.Pairwise.of_cons hl)
          (fun c hc => ha c (List.mem_cons_of_mem b hc))

/-- Sorting a list whose elements are pairwise strictly comparable with a
comparator that answers nonpositive exactly on the strictly smaller side
yields a strictly sorted list. -/
theorem jsSort_pairwise (lt : α → α → Bool) (cmp : α → α → Int)
    (htrans : ∀ a b c, lt a b = true → lt b c = true → lt a c = true)
    (hcmp : ∀ a b, (lt a b = true ∨ lt b a = true) →
      (cmp a b ≤ 0 ↔ lt a b = true))
    (l : List α)
    (hl : l.Pairwise (fun x y => lt x y = true ∨ lt y x = true)) :
    (jsSort cmp l).Pairwise (fun x y => lt x y = true) := by
  induction l with
  | nil => simp [jsSort]
  | cons a l ih =>
    have ha : ∀ b ∈ jsSort cmp l, lt a b = true ∨ lt b a = true := by
      intro b hb
      exact List.rel_of_pairwise_cons hl ((jsSort_perm cmp l).mem_iff.mp hb)
    exact jsOrderedInsert_pairwise lt cmp htrans hcmp a (jsSort cmp l)
      (ih (List.Pairwise.of_cons hl)) ha

/-- Unfolding equation of charListLt on two nonempty lists. -/
theorem charListLt_cons (a b : Char) (as bs : List Char) :
    charListLt (a :: as) (b :: bs) =
      (decide (a < b) || (decide (a = b) && charListLt as bs)) :=
  rfl

/-- Transitivity of the JavaScript lexicographic string order. -/
theorem charListLt_trans :
    ∀ as bs cs : List Char, charListLt as bs = true →
      charListLt bs cs = true → charListLt as cs = true := by
  intro as
  induction as with
  | nil =>
    intro bs cs h1 h2
    cases bs with
    | nil => simp [charListLt] at h1
    | cons b bs =>
      cases cs with
      | nil => simp [charListLt] at h2
      | cons c cs => rfl
  | cons a as ih =>
    intro bs cs h1 h2
    cases bs with
    | nil => simp [charListLt] at h1
    | cons b bs =>
      cases cs with
      | nil => simp [charListLt] at h2
      | cons c cs =>
        rw [charListLt_cons, Bool.or_eq_true, Bool.and_eq_true,
          decide_eq_true_eq, decide_eq_true_eq] at h1 h2 ⊢
        rcases h1 with h1 | ⟨rfl, h1⟩
        · rcases h2 with h2 | ⟨rfl, h2⟩
          · exact Or.inl (h1.trans h2)
          · exact Or.inl h1
        · rcases h2 with h2 | ⟨rfl, h2⟩
          · exact Or.inl h2
          · exact Or.inr ⟨rfl, ih bs cs h1 h2⟩

/-- Transitivity of jsStrLt. -/
theorem jsStrLt_trans (a b c : String) (h1 : jsStrLt a b = true)
    (h2 : jsStrLt b c = true) : jsStrLt a c = true :=
  charListLt_trans a.data b.data c.data h1 h2

namespace MetadataPrepare

/-- The oldestOwnerReducer of metadataPrepare.ts: keeps whichever of the
two owners has the lexicographically smaller created_date.  (The
prev-undefined branch of the source is unreachable because reduce is
called without an initial value.) -/
def oldestOwnerReducer (prev current : Owner) : Owner :=
  if jsStrLt prev.created_date current.created_date then prev else current

/-- The sort key of metadataPrepare.ts: a.owners.reduce(oldestOwnerReducer)
.created_date.  The source accesses owners without optional chaining and
reduce without an initial value, so an absent or empty owners array throws
inside the comparator; theorems about this sort carry hypotheses excluding
those records, and the default "" below is never reached under them. -/
def minOwnerDate (r : OSMetadata) : String :=
  match r.owners with
  | some (x :: xs) => (xs.foldl oldestOwnerReducer x).created_date
  | _ => ""

/-- The comparator passed to metadataJson.sort in metadataPrepare.ts:
aOwner.created_date < bOwner.created_date ? -1 : 1 (it never returns 0). -/
def sortComparator (a b : OSMetadata) : Int :=
  if jsStrLt (minOwnerDate a) (minOwnerDate b) then -1 else 1

/-- The sorting phase of metadataPrepare.ts: metadataJson.sort(comparator). -/
def sortRecords (rs : List OSMetadata) : List OSMetadata :=
  jsSort sortComparator rs

end MetadataPrepare

namespace Part002

/-- The file-enumeration comparator of part_002: filesToParse.sort by
BigNumber.from(basename(a, ".json")).sub(BigNumber.from(basename(b,
".json"))).toNumber(), i.e. numeric comparison of the file's numeric
basename (its prior sequential token id). -/
def fileComparator (a b : Nat) : Int :=
  (a : Int) - (b : Int)

/-- The file-enumeration order of part_002: the numeric basenames of the
input JSON files sorted ascending. -/
def sortFiles (ns : List Nat) : List Nat :=
  jsSort fileComparator ns

end Part002

/-- Assign sequential token ids 1..N to a list of records in order, as
both prepareMetadata loops do with tokenId = i + 1. -/
def assignIds (l : List α) : List (Nat × α) :=
  l.enum.map (fun p => (p.1 + 1, p.2))

theorem assignIds_map_fst (l : List α) :
    (assignIds l).map Prod.fst = List.range' 1 l.length := by
  simp only [assignIds, List.map_map]
  have h : (Prod.fst ∘ fun p : Nat × α => (p.1 + 1, p.2)) =
      (fun p : Nat × α => p.1 + 1) := rfl
  rw [h]
  have h2 : (fun p : Nat × α => p.1 + 1) = (fun n => n + 1) ∘ Prod.fst := rfl
  rw [h2, ← List.map_map, List.enum_map_fst, List.range'_eq_map_range]
  simp [Nat.add_comm]

/-- Modelled from the spec: the provenance timestamp the claims describe,
namely the minimum createdAt across a record's events, falling back to the
owners when no events are present, and absent when the record has neither.
This definition follows the spec's words and exists only to be compared
with the ordering the code actually computes. -/
def specProvenanceKey (r : OSMetadata) : Option String :=
  match r.events with
  | some (e :: es) =>
    some ((es.foldl Part002.oldestOwnerReducer e).created_date)
  | _ =>
    match r.owners with
    | some (o :: os) =>
      some ((os.foldl MetadataPrepare.oldestOwnerReducer o).created_date)
    | _ => none

/-! Model of fetchWithPagination (src/cli/commands/opensea.ts): starting
from cursor undefined, fetch a page, yield it, stop when the response has
no next cursor, otherwise continue from that cursor.  Cursors are
modelled as item offsets, the generator is given fuel (the source loop
terminates only because the server eventually omits the cursor), and the
run is recorded as a trace of (requested cursor, response) pairs. -/

/-- One response page: the items and the optional next cursor. -/
structure PageResponse (α : Type u) where
  items : List α
  next : Option Nat
deriving DecidableEq, Repr

/-- The generator loop of fetchWithPagination, recording for every
iteration which cursor was passed to the fetcher and what came back. -/
def fetchWithPagination (fetcher : Option Nat → PageResponse α) :
    Nat → Option Nat → List (Option Nat × PageResponse α)
  | 0, _ => []
  | fuel + 1, cur =>
    let r := fetcher cur
    (cur, r) ::
      match r.next with
      | none => []
      | some n => fetchWithPagination fetcher fuel (some n)

/-- A cursor-based listing server holding a fixed item list served in
pages of size pageSize: a request at offset off returns the next pageSize
items and a next cursor exactly when items remain beyond them. -/
def pageAt (items : List α) (pageSize : Nat) (cur : Option Nat) :
    PageResponse α :=
  let off := cur.getD 0
  { items := (items.drop off).take pageSize
    next := if off + pageSize < items.length then some (off + pageSize) else none }

/-- A full paginated fetch of the item list: fetchWithPagination against
the pageAt server, started at cursor undefined, with enough fuel for the
traversal. -/
def fetchAllPages (items : List α) (pageSize : Nat) :
    List (Option Nat × PageResponse α) :=
  fetchWithPagination (pageAt items pageSize) (items.length + 1) none

theorem fetchWithPagination_pageAt_spec (items : List α) (P : Nat)
    (hP : 0 < P) :
    ∀ (fuel : Nat) (cur : Option Nat), cur.getD 0 ≤ items.length →
      items.length - cur.getD 0 < fuel →
      ((fetchWithPagination (pageAt items P) fuel cur).map
          (fun p => p.2.items)).join = items.drop (cur.getD 0) ∧
      (fetchWithPagination (pageAt items P) fuel cur).length =
        max 1 ((items.length - cur.getD 0 + P - 1) / P) ∧
      List.Chain' (fun x y => y.1 = x.2.next)
        (fetchWithPagination (pageAt items P) fuel cur) ∧
      (∀ p ∈ (fetchWithPagination (pageAt items P) fuel cur).head?,
        p.1 = cur) := by
  intro fuel
  induction fuel with
  | zero => intro cur hoff hfuel; omega
  | succ fuel ih =>
    intro cur hoff hfuel
    set L := items.length with hL
    set off := cur.getD 0 with hoffdef
    by_cases hmore : off + P < L
    · have hnext : (pageAt items P cur).next = some (off + P) := by
        simp [pageAt, ← hoffdef, hmore]
      have hrec := ih (some (off + P)) (by simp; omega) (by simp; omega)
      simp only [Option.getD_some] at hrec
      obtain ⟨hjoin, hlen, hchain, hhead⟩ := hrec
      have hunfold : fetchWithPagination (pageAt items P) (fuel + 1) cur =
          (cur, pageAt items P cur) ::
            fetchWithPagination (pageAt items P) fuel (some (off + P)) := by
        rw [fetchWithPagination, hnext]
      refine ⟨?_, ?_, ?_, ?_⟩
      · rw [hunfold]
        simp only [List.map_cons, List.join_cons, hjoin]
        have hitems : (pageAt items P cur).items = (items.drop off).take P := by
          simp [pageAt, ← hoffdef]
        rw [hitems]
        have hdd : items.drop (off + P) = (items.drop off).drop P := by
          rw [List.drop_drop, Nat.add_comm]
        rw [hdd, List.take_append_drop]
      · rw [hunfold]
        simp only [List.length_cons, hlen]
        have h1 : L - (off + P) + P - 1 = L - off - 1 := by omega
        have h2 : L - off + P - 1 = (L - off - 1) + P := by omega
        rw [h1, h2, Nat.add_div_right _ hP]
        have h3 : 1 ≤ (L - off - 1) / P := by
          have : P ≤ L - off - 1 := by omega
          exact Nat.one_le_div_iff hP |>.mpr this
        omega
      · rw [hunfold]
        rw [List.chain'_cons']
        refine ⟨?_, hchain⟩
        intro b hb
        rw [hhead b hb, hnext]
      · rw [hunfold]
        intro p hp
        simp only [List.head?_cons, Option.mem_def, Option.some.injEq] at hp
        exact congrArg Prod.fst hp.symm
    · have hnext : (pageAt items P cur).next = none := by
        simp [pageAt, ← hoffdef, hmore]
      have hunfold : fetchWithPagination (pageAt items P) (fuel + 1) cur =
          [(cur, pageAt items P cur)] := by
        rw [fetchWithPagination, hnext]
      refine ⟨?_, ?_, ?_, ?_⟩
      · rw [hunfold]
        simp only [List.map_cons, List.map_nil, List.join_cons, List.join_nil,
          List.append_nil]
        have hitems : (pageAt items P cur).items = (items.drop off).take P := by
          simp [pageAt, ← hoffdef]
        rw [hitems]
        refine List.take_of_length_le ?_
        simp
        omega
      · rw [hunfold]
        simp only [List.length_singleton]
        have hle : (L - off + P - 1) / P ≤ 1 := by
          have : L - off + P - 1 < 2 * P := by omega
          have := (Nat.div_lt_iff_lt_mul hP).mpr (by omega : L - off + P - 1 < 2 * P)
          omega
        omega
      · rw [hunfold]; simp
      · rw [hunfold]
        intro p hp
        simp only [List.head?_cons, Option.mem_def, Option.some.injEq] at hp
        exact congrArg Prod.fst hp.symm

/-! Model of the HTTP retry pipeline.  The operation passed to
retryWithBackoff by downloadMetadata (src/cli/commands/opensea.ts) checks
for status 429; when the response carries a positive retry-after hint it
first suspends for that many seconds (times 1000, in milliseconds) and
then throws "Rate limited" so the retry policy runs again.  The retry
policy itself lives in src/cli/retry.ts, which is not part of the given
sources. -/

/-- Outcome of a single underlying HTTP fetch, as the 429 handler in
opensea.ts distinguishes them: a usable response, a 429 carrying the
parsed retry-after header (0 when absent), or any other failure. -/
inductive FetchOutcome
  | ok
  | rateLimited (retryAfter : Nat)
  | transientErr
deriving DecidableEq, Repr

/-- Observable timing events of a retried fetch: the start of an attempt,
a server-directed rate-limit wait (milliseconds), and a policy backoff
delay (milliseconds). -/
inductive RetryEvent
  | attempt (n : Nat)
  | serverWait (ms : Nat)
  | backoff (ms : Nat)
deriving DecidableEq, Repr

/-- One execution of the operation wrapped by retryWithBackoff in
opensea.ts: a 429 with positive retry-after suspends for
retryAfter * 1000 milliseconds and then throws; a 429 without the hint
throws immediately; any other error also just throws. -/
def fetchAttemptEvents : FetchOutcome → List RetryEvent × Bool
  | .ok => ([], true)
  | .transientErr => ([], false)
  | .rateLimited ra => ((if 0 < ra then [RetryEvent.serverWait (ra * 1000)] else []), false)

/-- Modelled from the spec: the exponential-backoff multiplier of
retryWithBackoff (src/cli/retry.ts, not among the given sources); the
spec fixes only that the delay grows by a fixed multiplicative factor per
attempt.  No theorem depends on its value. -/
def backoffFactor : Nat := 2

/-- Modelled from the spec: retryWithBackoff (src/cli/retry.ts, not among
the given sources) runs the operation up to attemptsLeft times, failing
for good when the budget is exhausted, and sleeps delayMs (growing by
backoffFactor) between a failed attempt and the next one.  The operation
is given as the outcome of each numbered attempt; the run returns the
observable event trace and whether it eventually succeeded. -/
def retryWithBackoff (op : Nat → FetchOutcome) :
    Nat → Nat → Nat → List RetryEvent × Bool
  | 0, _, _ => ([], false)
  | n + 1, delayMs, attemptNo =>
    let step := fetchAttemptEvents (op attemptNo)
    if step.2 then (RetryEvent.attempt attemptNo :: step.1, true)
    else
      match n with
      | 0 => (RetryEvent.attempt attemptNo :: step.1, false)
      | m + 1 =>
        let rest :=
          retryWithBackoff op (m + 1) (delayMs * backoffFactor) (attemptNo + 1)
        (RetryEvent.attempt attemptNo :: step.1 ++ RetryEvent.backoff delayMs :: rest.1,
          rest.2)

/-- A retried run only looks at attempt outcomes from its starting
attempt number onward. -/
theorem retryWithBackoff_congr (op op2 : Nat → FetchOutcome) :
    ∀ (n delayMs attemptNo : Nat),
      (∀ k, attemptNo ≤ k → op k = op2 k) →
      retryWithBackoff op n delayMs attemptNo =
        retryWithBackoff op2 n delayMs attemptNo := by
  intro n
  induction n with
  | zero => intro delayMs attemptNo _; rfl
  | succ n ih =>
    intro delayMs attemptNo h
    have hop : op attemptNo = op2 attemptNo := h attemptNo (Nat.le_refl _)
    match n with
    | 0 => simp only [retryWithBackoff, hop]
    | m + 1 =>
      have hrest := ih (delayMs * backoffFactor) (attemptNo + 1)
        (fun k hk => h k (Nat.le_of_succ_le hk))
      simp only [retryWithBackoff, hop, hrest]

/-! Model of the top-level run and commit behaviour of downloadMetadata
(src/cli/commands/opensea.ts). -/

/-- The enrichment join of one asset inside the mergeMap stage: the
object literal awaits the image fetch, the full event history and the
full ownership history; the first rejection among them rejects the whole
enrichment, and only a fully joined result is passed on. -/
def enrichAsset (img : Except String ι) (ev : Except String ε)
    (ow : Except String ω) : Except String (ι × ε × ω) := do
  let i ← img
  let e ← ev
  let o ← ow
  pure (i, e, o)

/-- Does an Except hold a success value. -/
def exceptOk : Except String α → Bool
  | .ok _ => true
  | .error _ => false

/-- The harvest-storage path of an asset's image file,
./.metadata/slug/tokenId.ext. -/
def harvestImagePath (slug tokenId ext : String) : String :=
  "./.metadata/" ++ slug ++ "/" ++ tokenId ++ "." ++ ext

/-- The harvest-storage path of an asset's JSON record,
./.metadata/slug/tokenId.json. -/
def harvestJsonPath (slug tokenId : String) : String :=
  "./.metadata/" ++ slug ++ "/" ++ tokenId ++ ".json"

/-- The file writes performed for one asset: the tap stage runs only when
the enrichment join delivered a value, and then writes the image bytes
and the JSON record; when any sub-resolution failed, the stage is never
reached and nothing is written. -/
def processAssetWrites (slug tokenId ext : String) (img : Except String ι)
    (ev : Except String ε) (ow : Except String ω) : List String :=
  match enrichAsset img ev ow with
  | .error _ => []
  | .ok _ => [harvestImagePath slug tokenId ext, harvestJsonPath slug tokenId]

/-- The first enrichment error of the pipeline (the rxjs stream errors at
the first rejected inner observable), or success when every enrichment
succeeded. -/
def pipelineResult : List (Except String Unit) → Except String Unit
  | [] => .ok ()
  | .ok _ :: rest => pipelineResult rest
  | .error e :: _ => .error e

/-- The completion behaviour of downloadMetadata: the finished promise
rejects with the pipeline's first error, but the function awaits it
inside try/catch and only console.error's the caught error, so
downloadMetadata itself resolves normally either way.  Returns the
function's own outcome and the log output of the final step. -/
def downloadMetadataOutcome (enrichResults : List (Except String Unit)) :
    Except String Unit × List String :=
  match pipelineResult enrichResults with
  | .ok _ => (.ok (), ["Assets complete"])
  | .error e => (.ok (), ["console.error: " ++ e])

/-- The concurrency bound passed to mergeMap in downloadMetadata:
mergeMap(async (asset) => ..., 1). -/
def enrichConcurrency : Nat := 1

/-- Scheduler state of the mergeMap fan-out stage: assets not yet
started, enrichments in flight, and settled enrichments. -/
structure FanState where
  queue : List Nat
  active : List Nat
  settled : List Nat
deriving DecidableEq, Repr

/-- Interleaving semantics of mergeMap with concurrency bound c: a queued
asset may start only while fewer than c enrichments are in flight, and an
in-flight enrichment may settle at any time. -/
inductive FanStep (c : Nat) : FanState → FanState → Prop
  | start (a : Nat) (q act d : List Nat) (h : act.length < c) :
      FanStep c ⟨a :: q, act, d⟩ ⟨q, act ++ [a], d⟩
  | settle (q l1 l2 d : List Nat) (x : Nat) :
      FanStep c ⟨q, l1 ++ x :: l2, d⟩ ⟨q, l1 ++ l2, d ++ [x]⟩

/-- The initial scheduler state: every discovered asset queued, nothing
in flight. -/
def fanInit (assets : List Nat) : FanState :=
  ⟨assets, [], []⟩

/-! Model of the image-URL rewrite inside downloadMetadata's retried
image fetch.  The retried closure mutates the shared URL object on every
attempt: it clears the query string, redirects the hostname, replaces the
first "/gae/" of the pathname with "/" (JavaScript String.replace with a
string pattern replaces only the first occurrence) and appends "=d" to
the pathname. -/

/-- JavaScript String.prototype.replace with a string pattern: replace
the first occurrence of pat by rep, returning the input unchanged when
pat does not occur. -/
def replaceFirstL (pat rep : List Char) : List Char → List Char
  | [] => []
  | c :: cs =>
    if startsWithL pat (c :: cs) then rep ++ (c :: cs).drop pat.length
    else c :: replaceFirstL pat rep cs

/-- Number of (possibly overlapping) occurrences of a pattern in a
character list. -/
def countOccL (pat : List Char) : List Char → Nat
  | [] => 0
  | c :: cs => (if startsWithL pat (c :: cs) then 1 else 0) + countOccL pat cs

/-- The "/gae/" pathname segment stripped by the rewrite. -/
def gaePattern : List Char := ['/', 'g', 'a', 'e', '/']

/-- The replacement for the stripped "/gae/" segment. -/
def slashReplacement : List Char := ['/']

/-- The "=d" resize suffix appended to the pathname on every attempt. -/
def edSuffix : List Char := ['=', 'd']

/-- k consecutive copies of the "=d" suffix. -/
def edRep : Nat → List Char
  | 0 => []
  | m + 1 => edSuffix ++ edRep m

/-- The mutable pieces of the shared WHATWG URL object that the retried
closure touches. -/
structure UrlModel where
  hostname : List Char
  pathname : List Char
  search : List Char
deriving DecidableEq, Repr

/-- The canonical high-resolution image host the rewrite redirects to. -/
def googleImageHost : List Char := "lh3.googleusercontent.com".data

/-- One execution of the retried closure's mutation of the shared URL:
imageUrl.search = ""; imageUrl.hostname = "lh3.googleusercontent.com";
imageUrl.pathname = pathname.replace("/gae/", "/") + "=d". -/
def rewriteImageUrl (u : UrlModel) : UrlModel :=
  { hostname := googleImageHost
    search := []
    pathname := replaceFirstL gaePattern slashReplacement u.pathname ++ edSuffix }

/-- The URL fetched by the k-th attempt of the retried image fetch: the
shared URL object after k executions of the mutating closure. -/
def attemptUrl (u0 : UrlModel) : Nat → UrlModel
  | 0 => u0
  | k + 1 => rewriteImageUrl (attemptUrl u0 k)

theorem startsWithL_cons (p c : Char) (ps cs : List Char) :
    startsWithL (p :: ps) (c :: cs) = (decide (p = c) && startsWithL ps cs) :=
  rfl

theorem replaceFirstL_of_not_substr (pat rep : List Char) :
    ∀ l, isSubstrL pat l = false → replaceFirstL pat rep l = l := by
  intro l
  induction l with
  | nil => intro _; rfl
  | cons c cs ih =>
    intro h
    rw [isSubstrL, Bool.or_eq_false_iff] at h
    rw [replaceFirstL, if_neg (by simp [h.1]), ih h.2]

theorem startsWithL_append_cases (pat : List Char) :
    ∀ (x y : List Char), startsWithL pat (x ++ y) = true →
      startsWithL pat x = true ∨ ∃ c, c ∈ pat ∧ c ∈ y := by
  induction pat with
  | nil => intro x y _; left; rfl
  | cons p ps ih =>
    intro x y h
    cases x with
    | nil =>
      right
      cases y with
      | nil => simp [startsWithL] at h
      | cons c cs =>
        simp only [List.nil_append, startsWithL_cons, Bool.and_eq_true,
          decide_eq_true_eq] at h
        exact ⟨p, List.mem_cons_self p ps, h.1 ▸ List.mem_cons_self c cs⟩
    | cons a x' =>
      simp only [List.cons_append, startsWithL_cons, Bool.and_eq_true,
        decide_eq_true_eq] at h
      rcases ih x' y h.2 with h3 | ⟨c, hc1, hc2⟩
      · left
        simp [startsWithL_cons, h.1, h3]
      · exact Or.inr ⟨c, List.mem_cons_of_mem p hc1, hc2⟩

theorem isSubstrL_eq_false_of_disjoint (p : Char) (ps : List Char) :
    ∀ y, (∀ c ∈ p :: ps, c ∉ y) → isSubstrL (p :: ps) y = false := by
  intro y
  induction y with
  | nil => intro _; rfl
  | cons c cs ih =>
    intro hdisj
    have hpc : p ≠ c := by
      intro he
      exact hdisj p (List.mem_cons_self p ps) (he ▸ List.mem_cons_self c cs)
    rw [isSubstrL, Bool.or_eq_false_iff]
    constructor
    · simp [startsWithL_cons, hpc]
    · exact ih (fun d hd hdc => hdisj d hd (List.mem_cons_of_mem c hdc))

theorem isSubstrL_append_right (p : Char) (ps : List Char) (y : List Char)
    (hdisj : ∀ c ∈ p :: ps, c ∉ y) :
    ∀ x, isSubstrL (p :: ps) x = false →
      isSubstrL (p :: ps) (x ++ y) = false := by
  intro x
  induction x with
  | nil =>
    intro _
    exact isSubstrL_eq_false_of_disjoint p ps y hdisj
  | cons c cs ih =>
    intro hx
    rw [isSubstrL, Bool.or_eq_false_iff] at hx
    rw [List.cons_append, isSubstrL, Bool.or_eq_false_iff]
    refine ⟨?_, ih hx.2⟩
    rw [← List.cons_append]
    cases hsw : startsWithL (p :: ps) ((c :: cs) ++ y) with
    | false => rfl
    | true =>
      rcases startsWithL_append_cases (p :: ps) (c :: cs) y hsw with h1 | ⟨d, hd1, hd2⟩
      · rw [h1] at hx
        exact absurd hx.1 (by simp)
      · exact absurd hd2 (hdisj d hd1)

theorem mem_replaceFirstL (pat rep : List Char) :
    ∀ l c, c ∈ replaceFirstL pat rep l → c ∈ rep ∨ c ∈ l := by
  intro l
  induction l with
  | nil => intro c hc; simp [replaceFirstL] at hc
  | cons a cs ih =>
    intro c hc
    rw [replaceFirstL] at hc
    by_cases hsw : startsWithL pat (a :: cs) = true
    · rw [if_pos hsw] at hc
      rcases List.mem_append.mp hc with h | h
      · exact Or.inl h
      · exact Or.inr (List.drop_subset pat.length (a :: cs) h)
    · rw [if_neg hsw] at hc
      rcases List.mem_cons.mp hc with rfl | h
      · exact Or.inr (List.mem_cons_self c cs)
      · rcases ih c h with h1 | h1
        · exact Or.inl h1
        · exact Or.inr (List.mem_cons_of_mem a h1)

theorem mem_edRep : ∀ m c, c ∈ edRep m → c = '=' ∨ c = 'd' := by
  intro m
  induction m with
  | zero => intro c hc; simp [edRep] at hc
  | succ m ih =>
    intro c hc
    rw [edRep] at hc
    rcases List.mem_append.mp hc with h | h
    · simp only [edSuffix, List.mem_cons, List.not_mem_nil, or_false] at h
      exact h
    · exact ih c h

theorem gaePattern_disjoint_edRep (m : Nat) :
    ∀ c ∈ gaePattern, c ∉ edRep m := by
  intro c hc hmem
  rcases mem_edRep m c hmem with rfl | rfl
  · exact absurd hc (by decide)
  · exact absurd hc (by decide)

theorem edRep_append_edSuffix : ∀ m, edRep m ++ edSuffix = edSuffix ++ edRep m := by
  intro m
  induction m with
  | zero => simp [edRep]
  | succ m ih =>
    rw [edRep, List.append_assoc, ih]

theorem startsWithL_edSuffix_ne (c : Char) (cs : List Char) (hc : c ≠ '=') :
    startsWithL edSuffix (c :: cs) = false := by
  have h1 : ('=' : Char) ≠ c := fun h => hc h.symm
  simp [edSuffix, startsWithL_cons, h1]

theorem countOccL_edSuffix_edRep : ∀ m, countOccL edSuffix (edRep m) = m := by
  intro m
  induction m with
  | zero => rfl
  | succ m ih =>
    have hexp : edRep (m + 1) = '=' :: 'd' :: edRep m := rfl
    rw [hexp, countOccL,
      if_pos (show startsWithL edSuffix ('=' :: 'd' :: edRep m) = true from rfl),
      countOccL,
      if_neg (by rw [startsWithL_edSuffix_ne 'd' (edRep m) (by decide)]; simp), ih]
    omega

theorem countOccL_edSuffix_append (x : List Char) (hx : '=' ∉ x) (m : Nat) :
    countOccL edSuffix (x ++ edRep m) = m := by
  induction x with
  | nil => simpa using countOccL_edSuffix_edRep m
  | cons c cs ih =>
    have hc : c ≠ '=' := fun h => hx (h ▸ List.mem_cons_self c cs)
    have hcs : '=' ∉ cs := fun h => hx (List.mem_cons_of_mem c h)
    rw [List.cons_append, countOccL,
      if_neg (by rw [startsWithL_edSuffix_ne c _ hc]; simp), ih hcs]
    omega

theorem attemptUrl_pathname (u0 : UrlModel)
    (h1 : isSubstrL gaePattern
      (replaceFirstL gaePattern slashReplacement u0.pathname) = false) :
    ∀ k, (attemptUrl u0 (k + 1)).pathname =
      replaceFirstL gaePattern slashReplacement u0.pathname ++ edRep (k + 1) := by
  intro k
  induction k with
  | zero =>
    show (rewriteImageUrl (attemptUrl u0 0)).pathname = _
    simp [rewriteImageUrl, attemptUrl, edRep]
  | succ k ih =>
    show (rewriteImageUrl (attemptUrl u0 (k + 1))).pathname = _
    rw [rewriteImageUrl]
    simp only
    rw [ih]
    have hns : isSubstrL gaePattern
        (replaceFirstL gaePattern slashReplacement u0.pathname ++ edRep (k + 1)) = false := by
      have := isSubstrL_append_right '/' ['g', 'a', 'e', '/'] (edRep (k + 1))
        (gaePattern_disjoint_edRep (k + 1))
        (replaceFirstL gaePattern slashReplacement u0.pathname) h1
      exact this
    rw [replaceFirstL_of_not_substr gaePattern slashReplacement _ hns,
      List.append_assoc, edRep_append_edSuffix]
    rfl

/-! Claim theorems. -/

/-- Claim C1, counterexample: a harvest run with a failed enrichment does
not surface the error — downloadMetadata catches the rejected finished
promise, logs it via console.error and resolves normally. -/
theorem c1_counterexample :
    downloadMetadataOutcome [Except.error "image fetch failed"] =
      (Except.ok (), ["console.error: image fetch failed"]) ∧
    (downloadMetadataOutcome [Except.error "image fetch failed"]).1 ≠
      Except.error "image fetch failed" := by
  refine ⟨rfl, ?_⟩
  intro h
  exact Except.noConfusion h

/-- Claim C1, amended: when any enrichment in a harvest run fails, the
first enrichment error is only printed via console.error, and
downloadMetadata itself completes successfully instead of failing. -/
theorem c1_error_swallowed (rs : List (Except String Unit)) (e : String)
    (h : pipelineResult rs = .error e) :
    downloadMetadataOutcome rs = (Except.ok (), ["console.error: " ++ e]) := by
  unfold downloadMetadataOutcome
  rw [h]

/-- Witness for c1_error_swallowed at a concrete failing run. -/
theorem c1_error_swallowed_witness :
    downloadMetadataOutcome [Except.ok (), Except.error "boom"] =
      (Except.ok (), ["console.error: " ++ "boom"]) :=
  c1_error_swallowed [Except.ok (), Except.error "boom"] "boom" rfl

/-- Claim C2, evaluation at the failing input: in part_002, a first run on
record r with an empty output directory downloads one gif and writes it to
out/assets/1.gif, but a second run over the resulting directory stat-checks
out/1.gif, misses, and downloads again (1 download, not 0); moreover when
the stat-checked path does exist, part_002 skips the metadata.image
rewrite entirely, so the emitted JSON differs from a run that downloaded.
The sibling metadataPrepare.ts version checks and writes the same path and
re-assigns metadata.image unconditionally, so its second run downloads
nothing and produces identical records. -/
theorem c2_skip_guard_broken :
    (Part002.mediaRun "out" 0
        [⟨"a", "", "./7.png", some [], none, none, none, none⟩]
        ⟨[], ["u1", "u2"], 0⟩ =
      .ok ([⟨"a", "", "1.gif", some [], none, none, none, none⟩],
        ⟨["out/assets/1.gif"], ["u2"], 1⟩)) ∧
    (Part002.mediaRun "out" 0
        [⟨"a", "", "./7.png", some [], none, none, none, none⟩]
        ⟨["out/assets/1.gif"], ["u1", "u2"], 0⟩ =
      .ok ([⟨"a", "", "1.gif", some [], none, none, none, none⟩],
        ⟨["out/assets/1.gif", "out/assets/1.gif"], ["u2"], 1⟩)) ∧
    (Part002.mediaRun "out" 0
        [⟨"a", "", "./7.png", some [], none, none, none, none⟩]
        ⟨["out/1.gif"], ["u1", "u2"], 0⟩ =
      .ok ([⟨"a", "", "./7.png", some [], none, none, none, none⟩],
        ⟨["out/1.gif"], ["u1", "u2"], 0⟩)) ∧
    (MetadataPrepare.mediaRun "out" 0
        [⟨"a", "", "./7.png", some [], none, none, none, none⟩]
        ⟨[], ["u1", "u2"], 0⟩ =
      .ok ([⟨"a", "", "1.gif", some [], none, none, none, none⟩],
        ⟨["out/1.gif"], ["u2"], 1⟩)) ∧
    (MetadataPrepare.mediaRun "out" 0
        [⟨"a", "", "./7.png", some [], none, none, none, none⟩]
        ⟨["out/1.gif"], ["u1", "u2"], 0⟩ =
      .ok ([⟨"a", "", "1.gif", some [], none, none, none, none⟩],
        ⟨["out/1.gif"], ["u1", "u2"], 0⟩)) :=
  ⟨rfl, rfl, rfl, rfl, rfl⟩

/-- Claim C4, evaluation at the failing input: a record whose events field
is an empty array makes part_002's normalization throw (Array.reduce with
no initial value on an empty array), while a record with the events field
absent is processed fine — no mint-date attribute, untouched description,
no original_creation_date. -/
theorem c4_empty_events_throws :
    (Part002.metadataPhase ⟨false, true⟩ 1
        ⟨"x", "d", "./1.png", some [], some [], some [], none, none⟩ =
      .error "TypeError: Reduce of empty array with no initial value") ∧
    (Part002.metadataPhase ⟨false, true⟩ 1
        ⟨"x", "d", "./1.png", some [], some [], none, none, none⟩ =
      .ok ⟨"x", "d", "./1.png", some [], some [], none, some "1", none⟩) :=
  ⟨rfl, rfl⟩

/-- Claim C3: when an attempt of a retried paginated fetch receives a 429
with a positive retry-after hint, the server-directed wait of
retryAfter * 1000 milliseconds happens inside that attempt, before the
retryable error is re-raised, hence before the policy backoff delay and
before the next attempt; and the rate-limited response consumes exactly
the one attempt it occupies — the remaining run is identical, in budget,
delays and final outcome, to the one a plain transient error would have
produced in its place, so the wait itself costs no attempt of the
maxAttempts budget. -/
theorem c3_server_wait_composes (op : Nat → FetchOutcome)
    (ra n delayMs attemptNo : Nat) (hra : 0 < ra)
    (hop : op attemptNo = .rateLimited ra) :
    retryWithBackoff op (n + 2) delayMs attemptNo =
      (RetryEvent.attempt attemptNo :: RetryEvent.serverWait (ra * 1000) ::
          RetryEvent.backoff delayMs ::
          (retryWithBackoff op (n + 1) (delayMs * backoffFactor) (attemptNo + 1)).1,
        (retryWithBackoff op (n + 1) (delayMs * backoffFactor) (attemptNo + 1)).2) ∧
    retryWithBackoff (fun k => if k = attemptNo then .transientErr else op k)
        (n + 2) delayMs attemptNo =
      (RetryEvent.attempt attemptNo :: RetryEvent.backoff delayMs ::
          (retryWithBackoff op (n + 1) (delayMs * backoffFactor) (attemptNo + 1)).1,
        (retryWithBackoff op (n + 1) (delayMs * backoffFactor) (attemptNo + 1)).2) := by
  have hcongr : retryWithBackoff (fun k => if k = attemptNo then FetchOutcome.transientErr else op k)
      (n + 1) (delayMs * backoffFactor) (attemptNo + 1) =
      retryWithBackoff op (n + 1) (delayMs * backoffFactor) (attemptNo + 1) := by
    apply retryWithBackoff_congr
    intro k hk
    rw [if_neg (by omega)]
  constructor
  · show retryWithBackoff op (n + 1 + 1) delayMs attemptNo = _
    rw [retryWithBackoff]
    simp [hop, fetchAttemptEvents, hra]
  · show retryWithBackoff _ (n + 1 + 1) delayMs attemptNo = _
    rw [retryWithBackoff]
    simp [fetchAttemptEvents, hcongr]

/-- Witness for c3_server_wait_composes: one rate-limited response with
retry-after 2 at attempt 0, budget 2, initial delay 250. -/
theorem c3_server_wait_composes_witness :
    retryWithBackoff (fun k => if k = 0 then FetchOutcome.rateLimited 2 else .ok)
        2 250 0 =
      (RetryEvent.attempt 0 :: RetryEvent.serverWait (2 * 1000) ::
          RetryEvent.backoff 250 ::
          (retryWithBackoff (fun k => if k = 0 then FetchOutcome.rateLimited 2 else .ok)
            1 (250 * backoffFactor) 1).1,
        (retryWithBackoff (fun k => if k = 0 then FetchOutcome.rateLimited 2 else .ok)
          1 (250 * backoffFactor) 1).2) :=
  (c3_server_wait_composes (fun k => if k = 0 then FetchOutcome.rateLimited 2 else .ok)
    2 0 250 0 (by decide) rfl).1

/-- Claim C6: for every asset, the tap stage writes the image file and the
JSON record exactly when all three sub-resolutions (image fetch, event
history, ownership history) succeeded; when any of them fails nothing at
all is written for that asset, so a record is harvested if and only if its
full commit happened and no partial record is ever persisted. -/
theorem c6_all_or_nothing_commit (slug tokenId ext : String)
    (img : Except String ι) (ev : Except String ε) (ow : Except String ω) :
    processAssetWrites slug tokenId ext img ev ow =
      if exceptOk img && exceptOk ev && exceptOk ow then
        [harvestImagePath slug tokenId ext, harvestJsonPath slug tokenId]
      else [] := by
  cases img <;> cases ev <;> cases ow <;> rfl

/-- Claim C7, counterexample: a pagination sequence with zero items still
yields one (empty) page, because the generator yields every response
before inspecting its cursor — the claimed ceil(L/P) page count fails at
L = 0, where ceil(0/P) = 0. -/
theorem c7_counterexample :
    (fetchAllPages ([] : List Nat) 1).length = 1 ∧
    (List.length ([] : List Nat) + 1 - 1) / 1 = 0 :=
  ⟨rfl, rfl⟩

/-- Claim C7, amended: against a cursor server holding L items in pages of
size P (next cursor present exactly when items remain), the paginated
fetch yields exactly max(1, ceil(L/P)) pages — one empty page when L = 0 —
the concatenation of the yielded pages' items is the full item list in
original order, and every page after the first is requested exactly at the
cursor carried by the previous response. -/
theorem c7_pagination_covers (items : List α) (P : Nat) (hP : 0 < P) :
    ((fetchAllPages items P).map (fun p => p.2.items)).join = items ∧
    (fetchAllPages items P).length = max 1 ((items.length + P - 1) / P) ∧
    List.Chain' (fun x y => y.1 = x.2.next) (fetchAllPages items P) := by
  have h := fetchWithPagination_pageAt_spec items P hP (items.length + 1) none
    (by simp) (by simp)
  simp only [Option.getD_none, List.drop_zero, Nat.sub_zero] at h
  exact ⟨h.1, h.2.1, h.2.2.1⟩

/-- Witness for c7_pagination_covers: three items in pages of two. -/
theorem c7_pagination_covers_witness :
    ((fetchAllPages [10, 20, 30] 2).map (fun p => p.2.items)).join = [10, 20, 30] ∧
    (fetchAllPages [10, 20, 30] 2).length = max 1 ((List.length [10, 20, 30] + 2 - 1) / 2) ∧
    List.Chain' (fun x y => y.1 = x.2.next) (fetchAllPages [10, 20, 30] 2) :=
  c7_pagination_covers [10, 20, 30] 2 (by decide)

/-- Claim C5, counterexample: metadataPrepare.ts keys its provenance sort
on the oldest OWNER date only and never consults events.  Record A has the
older event (2020) but the younger owner (2022); record B has both dates
2021.  The claimed key (minimum event createdAt, falling back to owners)
orders A before B, but the code sorts B first. -/
theorem c5_counterexample :
    MetadataPrepare.sortRecords
        [⟨"A", "", "", none, some [⟨"2022-01-01T00:00:00"⟩],
            some [⟨"2020-01-01T00:00:00"⟩], none, none⟩,
          ⟨"B", "", "", none, some [⟨"2021-01-01T00:00:00"⟩],
            some [⟨"2021-01-01T00:00:00"⟩], none, none⟩] =
      [⟨"B", "", "", none, some [⟨"2021-01-01T00:00:00"⟩],
          some [⟨"2021-01-01T00:00:00"⟩], none, none⟩,
        ⟨"A", "", "", none, some [⟨"2022-01-01T00:00:00"⟩],
          some [⟨"2020-01-01T00:00:00"⟩], none, none⟩] ∧
    specProvenanceKey
        ⟨"A", "", "", none, some [⟨"2022-01-01T00:00:00"⟩],
          some [⟨"2020-01-01T00:00:00"⟩], none, none⟩ =
      some "2020-01-01T00:00:00" ∧
    specProvenanceKey
        ⟨"B", "", "", none, some [⟨"2021-01-01T00:00:00"⟩],
          some [⟨"2021-01-01T00:00:00"⟩], none, none⟩ =
      some "2021-01-01T00:00:00" ∧
    jsStrLt "2020-01-01T00:00:00" "2021-01-01T00:00:00" = true := by
  refine ⟨?_, rfl, rfl, ?_⟩
  · rfl
  · rfl

/-- Claim C5, amended: metadataPrepare.ts assigns ids 1..N ascending by
each record's minimum owner created_date (events are never consulted),
provided every record has a nonempty owners array (otherwise the
comparator throws) and the keys are pairwise distinct (on equal keys the
comparator is inconsistent — it never returns 0 — so ECMAScript leaves
the order implementation-defined); the part_002 variant instead orders
records numerically by the numeric basename of their file, i.e. their
prior sequential id. -/
theorem c5_ordering_owners_and_prior_id :
    (∀ rs : List OSMetadata,
      (∀ r ∈ rs, ∃ o os, r.owners = some (o :: os)) →
      rs.Pairwise (fun a b =>
        jsStrLt (MetadataPrepare.minOwnerDate a) (MetadataPrepare.minOwnerDate b) = true ∨
        jsStrLt (MetadataPrepare.minOwnerDate b) (MetadataPrepare.minOwnerDate a) = true) →
      List.Perm (MetadataPrepare.sortRecords rs) rs ∧
      (MetadataPrepare.sortRecords rs).Pairwise (fun a b =>
        jsStrLt (MetadataPrepare.minOwnerDate a) (MetadataPrepare.minOwnerDate b) = true) ∧
      (assignIds (MetadataPrepare.sortRecords rs)).map Prod.fst =
        List.range' 1 rs.length) ∧
    (∀ ns : List Nat, ns.Pairwise (fun a b => a ≠ b) →
      List.Perm (Part002.sortFiles ns) ns ∧
      (Part002.sortFiles ns).Pairwise (fun a b => a < b)) := by
  constructor
  · intro rs _howners hdist
    have hcmp : ∀ a b : OSMetadata,
        (jsStrLt (MetadataPrepare.minOwnerDate a) (MetadataPrepare.minOwnerDate b) = true ∨
         jsStrLt (MetadataPrepare.minOwnerDate b) (MetadataPrepare.minOwnerDate a) = true) →
        (MetadataPrepare.sortComparator a b ≤ 0 ↔
          jsStrLt (MetadataPrepare.minOwnerDate a) (MetadataPrepare.minOwnerDate b) = true) := by
      intro a b _hcompat
      unfold MetadataPrepare.sortComparator
      cases h : jsStrLt (MetadataPrepare.minOwnerDate a) (MetadataPrepare.minOwnerDate b) with
      | false => simp
      | true => simp
    have htrans : ∀ a b c : OSMetadata,
        jsStrLt (MetadataPrepare.minOwnerDate a) (MetadataPrepare.minOwnerDate b) = true →
        jsStrLt (MetadataPrepare.minOwnerDate b) (MetadataPrepare.minOwnerDate c) = true →
        jsStrLt (MetadataPrepare.minOwnerDate a) (MetadataPrepare.minOwnerDate c) = true :=
      fun a b c h1 h2 => jsStrLt_trans _ _ _ h1 h2
    have hperm := jsSort_perm MetadataPrepare.sortComparator rs
    have hlen : (MetadataPrepare.sortRecords rs).length = rs.length :=
      hperm.length_eq
    refine ⟨hperm, ?_, ?_⟩
    · exact jsSort_pairwise
        (fun a b => jsStrLt (MetadataPrepare.minOwnerDate a) (MetadataPrepare.minOwnerDate b))
        MetadataPrepare.sortComparator htrans hcmp rs hdist
    · rw [assignIds_map_fst, hlen]
  · intro ns hdist
    have hcmp : ∀ a b : Nat,
        (decide (a < b) = true ∨ decide (b < a) = true) →
        (Part002.fileComparator a b ≤ 0 ↔ decide (a < b) = true) := by
      intro a b hcompat
      simp only [decide_eq_true_eq] at hcompat ⊢
      simp only [Part002.fileComparator]
      omega
    have htrans : ∀ a b c : Nat, decide (a < b) = true → decide (b < c) = true →
        decide (a < c) = true := by
      intro a b c h1 h2
      simp only [decide_eq_true_eq] at h1 h2 ⊢
      omega
    have hcompat : ns.Pairwise (fun a b =>
        decide (a < b) = true ∨ decide (b < a) = true) := by
      refine hdist.imp ?_
      intro a b hne
      simp only [decide_eq_true_eq]
      omega
    refine ⟨jsSort_perm Part002.fileComparator ns, ?_⟩
    have := jsSort_pairwise (fun a b : Nat => decide (a < b))
      Part002.fileComparator htrans hcmp ns hcompat
    exact this.imp (fun h => of_decide_eq_true h)

/-- Witness for c5_ordering_owners_and_prior_id at two concrete records
with distinct owner keys and at the concrete file list [3, 1, 2]. -/
theorem c5_ordering_witness :
    (List.Perm
        (MetadataPrepare.sortRecords
          [⟨"X", "", "", none, some [⟨"2021-05-05T00:00:00"⟩], none, none, none⟩,
            ⟨"Y", "", "", none, some [⟨"2020-05-05T00:00:00"⟩], none, none, none⟩])
        [⟨"X", "", "", none, some [⟨"2021-05-05T00:00:00"⟩], none, none, none⟩,
          ⟨"Y", "", "", none, some [⟨"2020-05-05T00:00:00"⟩], none, none, none⟩] ∧
      (MetadataPrepare.sortRecords
        [⟨"X", "", "", none, some [⟨"2021-05-05T00:00:00"⟩], none, none, none⟩,
          ⟨"Y", "", "", none, some [⟨"2020-05-05T00:00:00"⟩], none, none, none⟩]).Pairwise
        (fun a b =>
          jsStrLt (MetadataPrepare.minOwnerDate a) (MetadataPrepare.minOwnerDate b) = true) ∧
      (assignIds (MetadataPrepare.sortRecords
        [⟨"X", "", "", none, some [⟨"2021-05-05T00:00:00"⟩], none, none, none⟩,
          ⟨"Y", "", "", none, some [⟨"2020-05-05T00:00:00"⟩], none, none, none⟩])).map
          Prod.fst =
        List.range' 1 (List.length
          [⟨"X", "", "", none, some [⟨"2021-05-05T00:00:00"⟩], none, none, none⟩,
            (⟨"Y", "", "", none, some [⟨"2020-05-05T00:00:00"⟩], none, none,
              none⟩ : OSMetadata)])) ∧
    (List.Perm (Part002.sortFiles [3, 1, 2]) [3, 1, 2] ∧
      (Part002.sortFiles [3, 1, 2]).Pairwise (fun a b : Nat => a < b)) := by
  constructor
  · refine c5_ordering_owners_and_prior_id.1 _ ?_ ?_
    · intro r hr
      rcases List.mem_cons.mp hr with rfl | hr
      · exact ⟨_, _, rfl⟩
      · rcases List.mem_cons.mp hr with rfl | hr
        · exact ⟨_, _, rfl⟩
        · simp at hr
    · decide
  · exact c5_ordering_owners_and_prior_id.2 [3, 1, 2] (by decide)

/-- Claim C8: with name classification enabled (hunnys) and the record's
attributes array present, part_002 appends exactly one Type attribute —
Classic when the name includes "Hunny #", otherwise Named; with mint-date
injection enabled and a provenance timestamp available (a nonempty events
array), it additionally appends one Original Mint Date attribute carrying
the locale-formatted oldest event date and appends the fixed provenance
sentence referencing that date to the description, while with no
provenance timestamp (events absent) the description is left untouched,
no mint attribute is added and the record still succeeds. -/
theorem c8_attribute_derivation (opts : Part002.PrepOpts) (m : OSMetadata)
    (attrs : List IMetadataAttribute) (t : Nat)
    (hh : opts.hunnys = true) (ha : m.attributes = some attrs) :
    (Part002.typeAttributeFor m.name =
      if jsIncludes m.name "Hunny #" then ⟨"Type", "Classic"⟩
      else ⟨"Type", "Named"⟩) ∧
    (m.events = none →
      Part002.metadataPhase opts t m =
        .ok { m with
          attributes := some (attrs ++ [Part002.typeAttributeFor m.name])
          id := some (toString t)
          original_creation_date := none }) ∧
    (∀ e es, m.events = some (e :: es) →
      Part002.metadataPhase opts t m =
        .ok { m with
          attributes := some ((attrs ++ [Part002.typeAttributeFor m.name]) ++
            (if opts.mintAttribute then
              [⟨"Original Mint Date",
                localeDateString
                  ((es.foldl Part002.oldestOwnerReducer e).created_date)⟩]
             else []))
          id := some (toString t)
          original_creation_date :=
            some ((es.foldl Part002.oldestOwnerReducer e).created_date)
          description := m.description ++ Part002.provenanceSentence
            (localeDateString
              ((es.foldl Part002.oldestOwnerReducer e).created_date)) }) := by
  refine ⟨rfl, ?_, ?_⟩
  · intro hev
    simp [Part002.metadataPhase, Part002.oldestEventOf, Part002.finalizeRecord,
      hev, hh, ha, jsPushOpt]
  · intro e es hev
    have hold : Part002.oldestEventOf m.events =
        .ok (some (es.foldl Part002.oldestOwnerReducer e)) := by
      rw [hev]; rfl
    have hm : Part002.metadataPhase opts t m =
        .ok (Part002.finalizeRecord opts
          (some (es.foldl Part002.oldestOwnerReducer e)) t m) := by
      unfold Part002.metadataPhase
      rw [hold]
      rfl
    rw [hm]
    cases hma : opts.mintAttribute with
    | true => simp [Part002.finalizeRecord, hh, hma, ha, jsPushOpt]
    | false => simp [Part002.finalizeRecord, hh, hma, ha, jsPushOpt]

/-- Witness for c8_attribute_derivation: a record named "Hunny #1" with
an empty attributes array and one event, with both options enabled. -/
theorem c8_attribute_derivation_witness :
    Part002.metadataPhase ⟨true, true⟩ 5
        ⟨"Hunny #1", "d", "i", some [], none,
          some [⟨"2022-01-05T10:00:00"⟩], none, none⟩ =
      .ok ⟨"Hunny #1",
        "d" ++ Part002.provenanceSentence
          (localeDateString "2022-01-05T10:00:00"),
        "i",
        some (([] ++ [Part002.typeAttributeFor "Hunny #1"]) ++
          [⟨"Original Mint Date", localeDateString "2022-01-05T10:00:00"⟩]),
        none, some [⟨"2022-01-05T10:00:00"⟩], some (toString 5),
        some "2022-01-05T10:00:00"⟩ := by
  have h := (c8_attribute_derivation ⟨true, true⟩
    ⟨"Hunny #1", "d", "i", some [], none,
      some [⟨"2022-01-05T10:00:00"⟩], none, none⟩ [] 5 rfl rfl).2.2
    ⟨"2022-01-05T10:00:00"⟩ [] rfl
  simpa using h

/-- Claim C9: with the concurrency bound 1 that downloadMetadata passes to
mergeMap, every scheduler state reachable from the initial fan-out state
has at most one enrichment in flight — a second asset's enrichment never
starts before the previous one settles. -/
theorem c9_single_enrichment_in_flight (assets : List Nat) (s : FanState)
    (h : Relation.ReflTransGen (FanStep enrichConcurrency) (fanInit assets) s) :
    s.active.length ≤ 1 := by
  induction h with
  | refl => simp [fanInit]
  | tail _hsteps hstep ih =>
    cases hstep with
    | start a q act d hlt =>
      simp only [enrichConcurrency] at hlt
      simp only [List.length_append, List.length_singleton]
      omega
    | settle q l1 l2 d x =>
      simp only [List.length_append, List.length_cons] at ih ⊢
      omega

/-- Witness for c9_single_enrichment_in_flight: the state after starting
the single queued asset. -/
theorem c9_single_enrichment_in_flight_witness :
    (FanState.mk [] [7] []).active.length ≤ 1 :=
  c9_single_enrichment_in_flight [7] ⟨[], [7], []⟩
    (Relation.ReflTransGen.single (FanStep.start 7 [] [] [] (by decide)))

/-- Claim C10: the image-URL rewrite runs inside the retried operation and
mutates the shared URL object, so (provided the original pathname holds at
most one "/gae/" segment and no "=" character) the k-th fetch attempt
requests the canonical host with an empty query but a pathname equal to
the canonically rewritten path followed by k copies of "=d" — exactly k
occurrences of "=d" — and every attempt after the first fetches a URL
different from the canonically rewritten one of attempt 1. -/
theorem c10_url_rewrite_accumulates (u0 : UrlModel)
    (hgae : isSubstrL gaePattern
      (replaceFirstL gaePattern slashReplacement u0.pathname) = false)
    (heq : '=' ∉ u0.pathname) :
    (∀ k, (attemptUrl u0 (k + 1)).pathname =
      replaceFirstL gaePattern slashReplacement u0.pathname ++ edRep (k + 1)) ∧
    (∀ k, countOccL edSuffix ((attemptUrl u0 (k + 1)).pathname) = k + 1) ∧
    (∀ k, (attemptUrl u0 (k + 1)).hostname = googleImageHost ∧
      (attemptUrl u0 (k + 1)).search = []) ∧
    (∀ k, 1 ≤ k →
      (attemptUrl u0 (k + 1)).pathname ≠ (attemptUrl u0 1).pathname) := by
  have hpath := attemptUrl_pathname u0 hgae
  have hbase : '=' ∉ replaceFirstL gaePattern slashReplacement u0.pathname := by
    intro hmem
    rcases mem_replaceFirstL gaePattern slashReplacement u0.pathname '=' hmem with h | h
    · exact absurd h (by decide)
    · exact heq h
  have hcount : ∀ k, countOccL edSuffix ((attemptUrl u0 (k + 1)).pathname) = k + 1 := by
    intro k
    rw [hpath k]
    exact countOccL_edSuffix_append _ hbase (k + 1)
  refine ⟨hpath, hcount, ?_, ?_⟩
  · intro k
    exact ⟨rfl, rfl⟩
  · intro k hk hpe
    have h1 := hcount k
    have h2 := hcount 0
    rw [hpe] at h1
    rw [h2] at h1
    omega

/-- Witness for c10_url_rewrite_accumulates at a concrete asset URL,
specialized to the second attempt. -/
theorem c10_url_rewrite_accumulates_witness :
    (attemptUrl ⟨"img.example.com".data, "/gae/abc123".data, "?w77".data⟩ 2).pathname =
      replaceFirstL gaePattern slashReplacement "/gae/abc123".data ++ edRep 2 ∧
    countOccL edSuffix
      ((attemptUrl ⟨"img.example.com".data, "/gae/abc123".data, "?w77".data⟩ 2).pathname) = 2 ∧
    (attemptUrl ⟨"img.example.com".data, "/gae/abc123".data, "?w77".data⟩ 2).pathname ≠
      (attemptUrl ⟨"img.example.com".data, "/gae/abc123".data, "?w77".data⟩ 1).pathname := by
  have h := c10_url_rewrite_accumulates
    ⟨"img.example.com".data, "/gae/abc123".data, "?w77".data⟩ (by decide) (by decide)
  exact ⟨h.1 1, h.2.1 1, h.2.2.2 1 (by decide)⟩

end Oss
